import Mathlib

/-!
Verification of the GKArray quantile-sketch implementation
(`src/gkarray/gkarray.py`) against its natural-language specification.

The Python code is shallowly embedded: finite float values become `ℚ`,
the `Entry` record and the `GKArray` object become structures, and every
method that can raise becomes a function into `Except`, whose error value
carries the (possibly already mutated) object states, mirroring Python's
in-place mutation followed by exception propagation.

A central fact about the source: `merge_compress` builds
`incoming = self.incoming + [Entry(e.val, e.g, e.delta) for e in entries]`
without wrapping the raw buffered floats as `Entry` objects, and then
runs `sorted(incoming, key=lambda x: x.val)`.  Accessing `.val` on a raw
float raises `AttributeError`, so any compaction that starts with a
non-empty raw buffer fails.  The embedding models this by returning
`PyErr.attributeError` exactly when `incoming ≠ []`.
-/

/-- `Entry(val, g, delta)` from the source: `val : ℚ` is the observed value,
`g` and `delta` are the integer rank-gap and rank-uncertainty fields. -/
structure Entry where
  val : ℚ
  g : ℤ
  delta : ℤ
deriving DecidableEq, Repr, Inhabited

/-- The `GKArray` object state.  Field names follow the source
(`eps`, `entries`, `incoming`, `_min`, `_max`, `_n`, `_sum`, `_avg`);
the underscored attributes are rendered `minv`, `maxv`, `n`, `sumv`, `avg`.
In the source `_min`/`_max` are initialized to float `±inf`, which `ℚ`
cannot represent; `initSt` therefore leaves them as parameters, and no
claim depends on their initial values. -/
structure GKArray where
  eps : ℚ
  entries : List Entry
  incoming : List ℚ
  minv : ℚ
  maxv : ℚ
  n : ℕ
  sumv : ℚ
  avg : ℚ
deriving DecidableEq, Repr

/-- Python exceptions that the embedded operations can raise. -/
inductive PyErr where
  | unequalEpsilon
  | attributeError
  | indexError
deriving DecidableEq, Repr

/-- `GKArray.__init__(eps)`: empty entry list, empty buffer, zero
aggregates.  `mn0`/`mx0` stand for the float infinities (see `GKArray`). -/
def initSt (eps mn0 mx0 : ℚ) : GKArray :=
  ⟨eps, [], [], mn0, mx0, 0, 0, 0⟩

/-- Python `int(x)` on a float: truncation toward zero. -/
def pytrunc (x : ℚ) : ℤ := if 0 ≤ x then ⌊x⌋ else ⌈x⌉

/-- Ordering of entries by `val`, the key used by `sorted(..., key=lambda x: x.val)`. -/
def entryLe (a b : Entry) : Prop := a.val ≤ b.val

instance : DecidableRel entryLe := fun a b => inferInstanceAs (Decidable (a.val ≤ b.val))

instance : IsTotal Entry entryLe := ⟨fun a b => le_total a.val b.val⟩

instance : IsTrans Entry entryLe := ⟨fun _ _ _ h1 h2 => le_trans h1 h2⟩

/-- Total `g`-mass of an entry list, `sum(e.g for e in entries)`. -/
def sumG (es : List Entry) : ℤ := (es.map fun e => e.g).sum

/-- The fresh copy `Entry(e.val, e.g, e.delta)` the source makes of each
supplied entry in `merge_compress` and `merge`. -/
def copyEntry (e : Entry) : Entry := Entry.mk e.val e.g e.delta

/-- The two-cursor merge/compress sweep inside `GKArray.merge_compress`
(lines 74–107 of the source), written as a recursion on the two sorted
lists: `inc` plays the `incoming` cursor `i`, `ents` the `self.entries`
cursor `j`.  Absorptions mutate the next entry's `g` in place in the
source; here the modified entry heads the recursive call. -/
def sweep (thr : ℤ) : List Entry → List Entry → List Entry
  | [], [] => []
  | [], e :: es =>
    match es with
    | e2 :: rest =>
      if e.g + e2.g + e2.delta ≤ thr then
        sweep thr [] ({ e2 with g := e2.g + e.g } :: rest)
      else
        e :: sweep thr [] (e2 :: rest)
    | [] => [e]
  | inc :: incs, [] =>
    match incs with
    | i2 :: rest =>
      if inc.g + i2.g + i2.delta ≤ thr then
        sweep thr ({ i2 with g := i2.g + inc.g } :: rest) []
      else
        inc :: sweep thr (i2 :: rest) []
    | [] => [inc]
  | inc :: incs, e :: es =>
    if inc.val < e.val then
      if inc.g + e.g + e.delta ≤ thr then
        sweep thr incs ({ e with g := e.g + inc.g } :: es)
      else
        { inc with delta := e.g + e.delta - inc.g } :: sweep thr incs (e :: es)
    else
      match es with
      | e2 :: rest =>
        if e.g + e2.g + e2.delta ≤ thr then
          sweep thr (inc :: incs) ({ e2 with g := e2.g + e.g } :: rest)
        else
          e :: sweep thr (inc :: incs) (e2 :: rest)
      | [] => e :: sweep thr (inc :: incs) []
termination_by a b => a.length + b.length
decreasing_by all_goals simp_arith

/-- `GKArray.merge_compress(entries=[])`.  The source concatenates the raw
`self.incoming` floats with copies of the supplied entries and sorts by the
`.val` attribute; a raw float has no `.val`, so the call raises
`AttributeError` whenever the buffer is non-empty (state unchanged, since
the exception fires before any mutation).  Otherwise the candidate list is
the sorted copies of `entries`, swept against `self.entries`, and the
buffer is cleared. -/
def merge_compress (s : GKArray) (entries : List Entry) : Except (PyErr × GKArray) GKArray :=
  if s.incoming ≠ [] then .error (.attributeError, s)
  else
    let thr : ℤ := ⌊2 * s.eps * ((s.n : ℚ) - 1)⌋
    let inc : List Entry := List.insertionSort entryLe (entries.map copyEntry)
    .ok { s with entries := sweep thr inc s.entries, incoming := [] }

/-- The state mutations of `GKArray.add(val)` that happen before the
compaction trigger is tested: `_n`, `_sum`, `_avg`, `incoming`, `_min`,
`_max`. -/
def addState (s : GKArray) (v : ℚ) : GKArray :=
  { s with
    n := s.n + 1,
    sumv := s.sumv + v,
    avg := s.avg + (v - s.avg) * (1 / ((s.n : ℚ) + 1)),
    incoming := s.incoming ++ [v],
    minv := if v < s.minv then v else s.minv,
    maxv := if s.maxv < v then v else s.maxv }

/-- `GKArray.add(val)`: mutate the aggregates and buffer, then run
`merge_compress` when `self._n % (int(1.0/self.eps) + 1) == 0`. -/
def add (s : GKArray) (v : ℚ) : Except (PyErr × GKArray) GKArray :=
  let s1 := addState s v
  if (s1.n : ℤ) % (pytrunc (1 / s.eps) + 1) = 0 then merge_compress s1 [] else .ok s1

/-- Fold `add` over a list of values: ingesting a stream. -/
def addAll (s : GKArray) (vs : List ℚ) : Except (PyErr × GKArray) GKArray :=
  match vs with
  | [] => .ok s
  | v :: rest =>
    match add s v with
    | .error e => .error e
    | .ok s1 => addAll s1 rest

/-- `GKArray.size()`: compact if the buffer is non-empty, then return the
number of compressed entries. -/
def size (s : GKArray) : Except (PyErr × GKArray) (GKArray × ℕ) :=
  if s.incoming ≠ [] then
    (merge_compress s []).map fun s1 => (s1, s1.entries.length)
  else
    .ok (s, s.entries.length)

/-- The interior synthetic entries of `GKArray.merge`: for each adjacent
pair of `other.entries`, `g = next.g + next.delta - cur.delta`, kept when
positive, anchored at the current value, with `delta = 0`. -/
def interiorEntries : List Entry → List Entry
  | e1 :: e2 :: rest =>
    (if 0 < e2.g + e2.delta - e1.delta then [⟨e1.val, e2.g + e2.delta - e1.delta, 0⟩] else [])
      ++ interiorEntries (e2 :: rest)
  | _ => []

/-- The full synthetic entry list that `GKArray.merge` reconstructs from a
compacted non-empty `other`: the `other._min`-anchored head entry, the
interior entries, and the last-value entry, each kept only when its
computed `g` is positive. -/
def synthEntries (o : GKArray) (spread : ℤ) : List Entry :=
  match o.entries with
  | [] => []
  | e0 :: _ =>
    (if 0 < e0.g + e0.delta - spread - 1 then
        [⟨o.minv, e0.g + e0.delta - spread - 1, 0⟩]
      else []) ++
    interiorEntries o.entries ++
    (let eL := o.entries.getLast?.getD default
     if 0 < spread + 1 - eL.delta then [⟨eL.val, spread + 1 - eL.delta, 0⟩] else [])

/-- `GKArray.merge(other)`.  Unequal epsilons raise before any mutation.
`other._n == 0`: `self` just compacts.  `self._n == 0`: `other` compacts
and `self` copies its entries and aggregates (note: `self.incoming` and
`self.eps` are left as they were).  General case: `spread` is computed
from `other`, `other` is compacted, the synthetic entries are built
(indexing `other.entries[0]` raises `IndexError` if `other` compacted to
nothing), `self`'s `n`/`eps`/`min`/`max` are updated — `_sum` and `_avg`
are not touched — and the synthetic entries are fed through
`self.merge_compress`.  The result carries the final states of both
sketches; errors carry the states as mutated so far. -/
def merge (s o : GKArray) : Except (PyErr × GKArray × GKArray) (GKArray × GKArray) :=
  if s.eps ≠ o.eps then .error (.unequalEpsilon, s, o)
  else if o.n = 0 then
    match merge_compress s [] with
    | .error (e, s1) => .error (e, s1, o)
    | .ok s1 => .ok (s1, o)
  else if s.n = 0 then
    match merge_compress o [] with
    | .error (e, o1) => .error (e, s, o1)
    | .ok o1 =>
      .ok ({ s with entries := o1.entries.map copyEntry,
                    minv := o1.minv, maxv := o1.maxv, n := o1.n, sumv := o1.sumv,
                    avg := o1.avg }, o1)
  else
    let spread := pytrunc (o.eps * ((o.n : ℚ) - 1))
    match merge_compress o [] with
    | .error (e, o1) => .error (e, s, o1)
    | .ok o1 =>
      if o1.entries = [] then .error (.indexError, s, o1)
      else
        let s1 := { s with n := s.n + o1.n, eps := max s.eps o1.eps,
                           minv := min s.minv o1.minv, maxv := max s.maxv o1.maxv }
        match merge_compress s1 (synthEntries o1 spread) with
        | .error (e, s2) => .error (e, s2, o1)
        | .ok s2 => .ok (s2, o1)

/-- Result of a quantile query: a rational value or the float `NaN`
sentinel (`np.nan`). -/
inductive QRes where
  | nan
  | num (x : ℚ)
deriving DecidableEq, Repr

/-- The entry scan of `GKArray.quantile` (lines 174–185): accumulate
`g_sum`, break at the first entry with `g_sum + delta - 1 > thr`, and
return the previous entry's value (`prev`), or `_min` when the break
happens at the very first entry, or the last value when no entry breaks. -/
def quantScan (mn : ℚ) (thr : ℤ) : List Entry → ℤ → Option ℚ → ℚ
  | [], _, none => mn
  | [], _, some v => v
  | e :: es, gsum, prev =>
    if thr < gsum + e.g + e.delta - 1 then
      match prev with
      | none => mn
      | some v => v
    else quantScan mn thr es (gsum + e.g) (some e.val)

/-- Linear interpolation at fractional index `h` into the sorted value
list `ys`: the value at `floor(h)` plus the fractional part times the gap
to the value at `ceil(h)` (numpy's default interpolation). -/
def interpVal (ys : List ℚ) (h : ℚ) : ℚ :=
  ys.getD (⌊h⌋).toNat 0 + (h - (⌊h⌋ : ℚ)) * (ys.getD (⌈h⌉).toNat 0 - ys.getD (⌊h⌋).toNat 0)

/-- `np.percentile(xs, p)` with the default linear interpolation: sort,
set `h = (p/100) * (len - 1)`, and interpolate between the values at
`floor(h)` and `ceil(h)`. -/
def npPercentile (xs : List ℚ) (p : ℚ) : ℚ :=
  let ys := List.insertionSort (· ≤ ·) xs
  interpVal ys ((p / 100) * ((ys.length : ℚ) - 1))

/-- `rank + spread` of `GKArray.quantile`:
`int(q*(n-1) + 1) + int(eps*(n-1))`. -/
def sketchThr (s : GKArray) (q : ℚ) : ℤ :=
  pytrunc (q * ((s.n : ℚ) - 1) + 1) + pytrunc (s.eps * ((s.n : ℚ) - 1))

/-- `GKArray.quantile(q)`.  Out-of-range `q` or an empty sketch yields
`NaN`; a non-empty buffer forces a compaction (which, in this source,
raises); small sketches (`n < 1/eps`) delegate to `np.percentile` over the
entry values (raising `IndexError` when there are none); otherwise the
entry scan runs. -/
def quantile (s : GKArray) (q : ℚ) : Except (PyErr × GKArray) (GKArray × QRes) :=
  if q < 0 ∨ 1 < q ∨ s.n = 0 then .ok (s, .nan)
  else
    match (if s.incoming = [] then Except.ok s else merge_compress s []) with
    | .error e => .error e
    | .ok s1 =>
      if (s1.n : ℚ) < 1 / s1.eps then
        if s1.entries = [] then .error (.indexError, s1)
        else .ok (s1, .num (npPercentile (s1.entries.map fun e => e.val) (q * 100)))
      else .ok (s1, .num (quantScan s1.minv (sketchThr s1 q) s1.entries 0 none))

/-- The per-value result of the recursive `self.quantile(q)` calls in the
unsorted branch of `GKArray.quantiles`, on a state that is already
compacted (empty buffer) with `n ≥ 1/eps` and `n > 0`. -/
def quantilePure (s : GKArray) (q : ℚ) : QRes :=
  if q < 0 ∨ 1 < q then .nan
  else .num (quantScan s.minv (sketchThr s q) s.entries 0 none)

/-- The inner `while j < len(q_values)` loop of `GKArray.quantiles`:
consume out-of-range values as `NaN` and satisfied values as `prev`
(`_min` at the first entry), stopping at the first unsatisfied in-range
value.  Returns the emitted results and the remaining query values. -/
def coScanInner (nn : ℕ) (spread gsum delta : ℤ) (prev : ℚ) : List ℚ → List QRes × List ℚ
  | [] => ([], [])
  | q :: qs =>
    if q < 0 ∨ 1 < q then
      let r := coScanInner nn spread gsum delta prev qs
      (QRes.nan :: r.1, r.2)
    else if pytrunc (q * ((nn : ℚ) - 1) + 1) + spread < gsum + delta - 1 then
      let r := coScanInner nn spread gsum delta prev qs
      (QRes.num prev :: r.1, r.2)
    else ([], q :: qs)

/-- The outer co-scan of `GKArray.quantiles`: advance through the entries
accumulating `g_sum`, running the inner loop at each entry; once the
entries are exhausted, remaining out-of-range values get `NaN` and the
rest get `_max`. -/
def coScanOuter (nn : ℕ) (spread : ℤ) (mx : ℚ) : List Entry → List ℚ → ℤ → ℚ → List QRes
  | [], qs, _, _ => qs.map fun q => if q < 0 ∨ 1 < q then QRes.nan else QRes.num mx
  | e :: es, qs, gsum, prev =>
    let r := coScanInner nn spread (gsum + e.g) e.delta prev qs
    r.1 ++ coScanOuter nn spread mx es r.2 (gsum + e.g) e.val

/-- `GKArray.quantiles(q_values)`: `NaN`s for an empty sketch; compaction
when the buffer is non-empty; the `np.percentile` comprehension for small
sketches (`IndexError` as soon as one in-range value is queried against no
entries); per-value `quantile` calls when `q_values` is not sorted; the
linear co-scan otherwise. -/
def quantiles (s : GKArray) (qs : List ℚ) : Except (PyErr × GKArray) (GKArray × List QRes) :=
  if s.n = 0 then .ok (s, qs.map fun _ => QRes.nan)
  else
    match (if s.incoming = [] then Except.ok s else merge_compress s []) with
    | .error e => .error e
    | .ok s1 =>
      if (s1.n : ℚ) < 1 / s1.eps then
        if s1.entries = [] ∧ qs.any (fun q => !(decide (q < 0) || decide (1 < q))) then
          .error (.indexError, s1)
        else
          .ok (s1, qs.map fun q =>
            if q < 0 ∨ 1 < q then QRes.nan
            else QRes.num (npPercentile (s1.entries.map fun e => e.val) (q * 100)))
      else if qs ≠ List.insertionSort (· ≤ ·) qs then
        .ok (s1, qs.map fun q => quantilePure s1 q)
      else
        .ok (s1, coScanOuter s1.n (pytrunc (s1.eps * ((s1.n : ℚ) - 1))) s1.maxv s1.entries qs 0 s1.minv)

/-! ### Helper lemmas -/

theorem sumG_nil : sumG [] = 0 := rfl

theorem sumG_cons (e : Entry) (es : List Entry) : sumG (e :: es) = e.g + sumG es := by
  simp [sumG]

theorem sumG_append (a b : List Entry) : sumG (a ++ b) = sumG a + sumG b := by
  simp [sumG]

/-- Python `int` truncation agrees with `floor` on non-negative inputs. -/
theorem pytrunc_eq_floor (x : ℚ) (h : 0 ≤ x) : pytrunc x = ⌊x⌋ := by
  simp [pytrunc, h]

/-- The sweep preserves total `g`-mass: every input entry is either
emitted or absorbed into another entry's `g`. -/
theorem sweep_sumG (thr : ℤ) (a b : List Entry) :
    sumG (sweep thr a b) = sumG a + sumG b := by
  induction a, b using sweep.induct thr <;>
      (rw [sweep.eq_def] ; dsimp only) <;> (try split_ifs) <;>
    simp_all [sumG_nil, sumG_cons] <;> omega

/-- A permutation leaves `sumG` unchanged. -/
theorem sumG_perm {a b : List Entry} (h : a.Perm b) : sumG a = sumG b := by
  unfold sumG
  exact (h.map fun e => e.g).sum_eq

theorem copyEntry_id (e : Entry) : copyEntry e = e := rfl

/-- A list of positive total `g`-mass is non-empty. -/
theorem ne_nil_of_sumG_pos {es : List Entry} (h : 0 < sumG es) : es ≠ [] := by
  intro hnil
  rw [hnil] at h
  simp [sumG] at h

/-! ### C1 — ingest triggers a failing compaction -/

/-- The state reached after `GKArray(0.5)` ingests `1, 2, 3`: on the third
`add`, `_n % (int(1/eps)+1) = 3 % 3 = 0` fires `merge_compress`, which
raises `AttributeError` on the raw buffer `[1, 2, 3]`. -/
def c1ErrState : GKArray := ⟨1/2, [], [1, 2, 3], 0, 3, 3, 6, 2⟩

/-- C1: refuted on the code (code bug).  The claim says that for a sketch
with `epsilon > 0` no operation besides unequal-epsilon `merge` can fail,
and in particular compaction with a non-empty raw incoming buffer does
not fail.  In fact ingesting the stream `1, 2, 3` into `GKArray(1/2)`
raises `AttributeError` inside the automatically triggered compaction,
because the raw buffer values are never wrapped as entries. -/
theorem c1_ingest_crashes :
    addAll (initSt (1/2) 0 0) [1, 2, 3] = .error (.attributeError, c1ErrState) := by
  norm_num [addAll, add, addState, initSt, merge_compress, pytrunc, c1ErrState,
    List.cons_ne_nil, reduceCtorEq]

/-! ### C2 — compaction with a raw buffer -/

/-- A sketch that has buffered one raw value (`GKArray(0.5)` after
`add(5)`). -/
def c2State : GKArray := ⟨1/2, [], [5], 5, 5, 1, 5, 5⟩

/-- C2: refuted on the code (code bug).  The claim (and the spec) say
`merge_compress` wraps each raw buffered value as `Entry(v, 1, 0)`, sorts
the candidates, and finishes with the merged entries and an empty buffer.
The source never wraps the raw values, so the sort key `x.val` raises
`AttributeError` on any non-empty buffer, before any state change. -/
theorem c2_compress_unwrapped_buffer :
    merge_compress c2State [] = .error (.attributeError, c2State) := by
  norm_num [merge_compress, c2State]

/-! ### C3 — error-bound claim unevaluable: quantile crashes -/

/-- The state reached after `GKArray(0.5)` ingests the stream `1, 2`
(no compaction trigger: `1 % 3 ≠ 0`, `2 % 3 ≠ 0`). -/
def c3State : GKArray := ⟨1/2, [], [1, 2], 0, 2, 2, 3, 3/2⟩

/-- C3: refuted on the code (code bug).  The stream `1, 2` has
`n = 2 ≥ 1/eps = 2` values, so the claim promises `quantile(1/2)` returns
a value of rank within `eps*n` of `q*(n-1)`; instead the query's forced
compaction of the raw buffer raises `AttributeError` (longer streams
already crash during ingest, see `c1_ingest_crashes`). -/
theorem c3_quantile_crashes :
    addAll (initSt (1/2) 0 0) [1, 2] = .ok c3State ∧
      quantile c3State (1/2) = .error (.attributeError, c3State) := by
  constructor
  · norm_num [addAll, add, addState, initSt, pytrunc, c3State]
  · norm_num [quantile, merge_compress, c3State, List.cons_ne_nil, reduceCtorEq]

/-- `merge_compress` never raises the unequal-epsilon error: its only
failure mode is the `AttributeError` on a non-empty raw buffer. -/
theorem merge_compress_no_unequalEpsilon (t : GKArray) (es : List Entry) (u : GKArray) :
    merge_compress t es ≠ .error (.unequalEpsilon, u) := by
  unfold merge_compress
  split <;> simp

/-! ### C7 — unequal-epsilon merge -/

/-- C7: confirmed.  `merge` raises `UnequalEpsilonException` exactly when
the two epsilons differ, and in that case the error carries both states
unchanged (the check is the first statement of the method, before any
mutation).  No other branch of `merge` produces this error. -/
theorem c7_merge_unequal_epsilon (s o : GKArray) :
    merge s o = .error (.unequalEpsilon, s, o) ↔ s.eps ≠ o.eps := by
  constructor
  · intro h
    by_contra heq
    rw [merge, if_neg (by simp [heq])] at h
    iterate 5 all_goals try split at h
    all_goals try simp_all [merge_compress_no_unequalEpsilon]
    all_goals
      (generalize hx : merge_compress _ _ = r at h ;
        rcases r with ⟨e2, s2⟩ | s2 <;> simp_all [merge_compress_no_unequalEpsilon])
  · intro h
    simp [merge, h]

/-! ### C9 — ingest effects and compaction trigger -/

/-- C9: corrected.  `add(v)` increments `count`, adds `v` to `sum`,
updates the mean by `mean += (v - mean)/count`, widens `min`/`max` to
cover `v`, appends `v` to the buffer, and tests the compaction trigger
`count % (floor(1/eps) + 1) == 0` — all exactly as claimed.  But when the
trigger fires, the compaction does not "run to completion": it raises
`AttributeError` on the just-appended raw buffer, the aggregate mutations
surviving in the carried state. -/
theorem c9_add_effects (s : GKArray) (v : ℚ) (heps : 0 < s.eps) :
    (addState s v).n = s.n + 1 ∧
    (addState s v).sumv = s.sumv + v ∧
    (addState s v).avg = s.avg + (v - s.avg) / ((s.n : ℚ) + 1) ∧
    (addState s v).minv = min s.minv v ∧
    (addState s v).maxv = max s.maxv v ∧
    (addState s v).incoming = s.incoming ++ [v] ∧
    (addState s v).entries = s.entries ∧
    (((s.n : ℤ) + 1) % (⌊1 / s.eps⌋ + 1) = 0 →
      add s v = .error (.attributeError, addState s v)) ∧
    (((s.n : ℤ) + 1) % (⌊1 / s.eps⌋ + 1) ≠ 0 → add s v = .ok (addState s v)) := by
  have htr : pytrunc (1 / s.eps) = ⌊1 / s.eps⌋ :=
    pytrunc_eq_floor _ (by positivity)
  refine ⟨rfl, rfl, ?_, ?_, ?_, rfl, rfl, ?_, ?_⟩
  · simp only [addState]
    rw [mul_one_div]
  · simp only [addState]
    rcases lt_trichotomy v s.minv with h | h | h
    · rw [if_pos h, min_eq_right h.le]
    · rw [h, if_neg (lt_irrefl _), min_self]
    · rw [if_neg (not_lt.mpr h.le), min_eq_left h.le]
  · simp only [addState]
    rcases lt_trichotomy s.maxv v with h | h | h
    · rw [if_pos h, max_eq_right h.le]
    · rw [h, if_neg (lt_irrefl _), max_self]
    · rw [if_neg (not_lt.mpr h.le), max_eq_left h.le]
  · intro h
    have hcond : ((addState s v).n : ℤ) % (pytrunc (1 / s.eps) + 1) = 0 := by
      simp only [addState]
      push_cast
      rw [htr]
      exact_mod_cast h
    simp only [add, if_pos hcond]
    rw [merge_compress, if_pos (by simp [addState])]
  · intro h
    have hcond : ¬((addState s v).n : ℤ) % (pytrunc (1 / s.eps) + 1) = 0 := by
      simp only [addState]
      push_cast
      rw [htr]
      exact_mod_cast h
    simp only [add, if_neg hcond]

/-- A concrete sketch for exercising `c9_add_effects`: `GKArray(0.5)`
after ingesting `7, 9`. -/
def c9State : GKArray := ⟨1/2, [], [7, 9], 7, 9, 2, 16, 8⟩

/-- Witness for `c9_add_effects` at the concrete sketch `c9State` and
value `1` (the trigger fires: `3 % 3 = 0`). -/
theorem c9_add_effects_witness :
    0 < c9State.eps ∧
    ((addState c9State 1).n = c9State.n + 1 ∧
      (addState c9State 1).sumv = c9State.sumv + 1 ∧
      (addState c9State 1).avg = c9State.avg + (1 - c9State.avg) / ((c9State.n : ℚ) + 1) ∧
      (addState c9State 1).minv = min c9State.minv 1 ∧
      (addState c9State 1).maxv = max c9State.maxv 1 ∧
      (addState c9State 1).incoming = c9State.incoming ++ [1] ∧
      (addState c9State 1).entries = c9State.entries ∧
      (((c9State.n : ℤ) + 1) % (⌊1 / c9State.eps⌋ + 1) = 0 →
        add c9State 1 = .error (.attributeError, addState c9State 1)) ∧
      (((c9State.n : ℤ) + 1) % (⌊1 / c9State.eps⌋ + 1) ≠ 0 →
        add c9State 1 = .ok (addState c9State 1))) :=
  ⟨by norm_num [c9State], c9_add_effects c9State 1 (by norm_num [c9State])⟩

/-- C9 counterexample: at `c9State` the trigger fires on `add(1)` and the
operation raises instead of compacting, refuting the claim that
"compaction runs automatically before ingest returns". -/
theorem c9_add_trigger_crashes :
    add c9State 1 = .error (.attributeError, addState c9State 1) := by
  norm_num [add, addState, merge_compress, pytrunc, c9State, List.cons_ne_nil, reduceCtorEq]

/-! ### C5 — general-case merge aggregates -/

theorem map_copyEntry (l : List Entry) : l.map copyEntry = l := by
  induction l with
  | nil => rfl
  | cons e t ih => simp [copyEntry, ih]

/-- Full characterization of `merge_compress`: with an empty raw buffer it
succeeds and replaces the entries with the sweep of the sorted supplied
entries against the old ones; otherwise it raises. -/
theorem merge_compress_eq (s : GKArray) (es : List Entry) :
    merge_compress s es =
      if s.incoming = [] then
        .ok { s with
          entries := sweep ⌊2 * s.eps * ((s.n : ℚ) - 1)⌋
            (List.insertionSort entryLe (es.map copyEntry)) s.entries,
          incoming := [] }
      else .error (.attributeError, s) := by
  rw [merge_compress]
  by_cases h : s.incoming = []
  · rw [if_neg (by simp [h]), if_pos h]
  · rw [if_pos h, if_neg h]

/-- C5: corrected.  In the general merge case (equal epsilons, both
sketches non-empty) `count`, `epsilon`, `min` and `max` are combined
exactly as claimed, but `self._sum` and `self._avg` are left untouched:
the source never combines them. -/
theorem c5_merge_general_aggregates (s o : GKArray) (hs : 0 < s.n) (ho : 0 < o.n)
    (heps : s.eps = o.eps) (hsi : s.incoming = []) (hoi : o.incoming = [])
    (hmass : sumG o.entries = (o.n : ℤ)) :
    (merge s o).toOption.map
        (fun p => (p.1.n, p.1.eps, p.1.minv, p.1.maxv, p.1.sumv, p.1.avg)) =
      some (s.n + o.n, max s.eps o.eps, min s.minv o.minv, max s.maxv o.maxv,
        s.sumv, s.avg) := by
  have hne : sweep ⌊2 * o.eps * ((o.n : ℚ) - 1)⌋
      (List.insertionSort entryLe (List.map copyEntry [])) o.entries ≠ [] := by
    apply ne_nil_of_sumG_pos
    rw [sweep_sumG]
    have : sumG (List.insertionSort entryLe (List.map copyEntry [])) = 0 := rfl
    rw [this, hmass]
    omega
  rw [merge, if_neg (by simp [heps]), if_neg ho.ne', if_neg hs.ne',
    merge_compress_eq o [], if_pos hoi]
  dsimp only
  rw [if_neg hne]
  rw [merge_compress_eq, if_pos hsi]
  simp only [Except.toOption, Option.map_some]
  rfl

/-- Concrete non-empty sketch (`self`) for the C5 merge: one entry, one
observation, `sum = avg = 1`. -/
def c5SelfState : GKArray := ⟨1/2, [⟨1, 1, 0⟩], [], 1, 1, 1, 1, 1⟩

/-- Concrete non-empty sketch (`other`) for the C5 merge: one entry, one
observation, `sum = avg = 2`. -/
def c5OtherState : GKArray := ⟨1/2, [⟨2, 1, 0⟩], [], 2, 2, 1, 2, 2⟩

/-- Witness for `c5_merge_general_aggregates` at the concrete pair
`c5SelfState`, `c5OtherState`. -/
theorem c5_merge_general_aggregates_witness :
    (0 < c5SelfState.n ∧ 0 < c5OtherState.n ∧ c5SelfState.eps = c5OtherState.eps ∧
        c5SelfState.incoming = [] ∧ c5OtherState.incoming = [] ∧
        sumG c5OtherState.entries = (c5OtherState.n : ℤ)) ∧
      (merge c5SelfState c5OtherState).toOption.map
          (fun p => (p.1.n, p.1.eps, p.1.minv, p.1.maxv, p.1.sumv, p.1.avg)) =
        some (c5SelfState.n + c5OtherState.n, max c5SelfState.eps c5OtherState.eps,
          min c5SelfState.minv c5OtherState.minv, max c5SelfState.maxv c5OtherState.maxv,
          c5SelfState.sumv, c5SelfState.avg) :=
  ⟨⟨by norm_num [c5SelfState], by norm_num [c5OtherState],
    by norm_num [c5SelfState, c5OtherState], rfl, rfl, by simp [sumG, c5OtherState]⟩,
    c5_merge_general_aggregates c5SelfState c5OtherState (by norm_num [c5SelfState])
      (by norm_num [c5OtherState]) (by norm_num [c5SelfState, c5OtherState]) rfl rfl
      (by simp [sumG, c5OtherState])⟩

/-- C5 counterexample: merging `c5OtherState` (whose exact running sum is
`2`) into `c5SelfState` (sum `1`) leaves the merged sum at `1`, not the
claimed `1 + 2`. -/
theorem c5_merge_sum_not_combined :
    (merge c5SelfState c5OtherState).toOption.map (fun p => p.1.sumv) =
        some c5SelfState.sumv ∧
      c5SelfState.sumv ≠ c5SelfState.sumv + c5OtherState.sumv := by
  constructor
  · norm_num [merge, merge_compress, sweep, synthEntries, interiorEntries, pytrunc,
      c5SelfState, c5OtherState, List.insertionSort, List.orderedInsert, entryLe,
      List.cons_ne_nil, reduceCtorEq, copyEntry, List.getLast?]
    exact ⟨_, ⟨_, rfl⟩, rfl⟩
  · norm_num [c5SelfState, c5OtherState]

/-! ### C4 — post-compaction invariants -/

/-- Every value in the sweep's output is bounded below by any common
lower bound of the two input lists' values (output values are drawn from
input values). -/
theorem sweep_val_lb (thr : ℤ) (a b : List Entry) (x : ℚ) :
    (∀ w ∈ a, x ≤ w.val) → (∀ w ∈ b, x ≤ w.val) → ∀ z ∈ sweep thr a b, x ≤ z.val := by
  induction a, b using sweep.induct thr <;>
      (intro hxa hxb z hz) <;>
      (rw [sweep.eq_def] at hz ; dsimp only at hz) <;>
    (try split_ifs at hz) <;> simp_all <;> aesop

theorem sweep_sorted (thr : ℤ) (a b : List Entry) :
    List.Sorted entryLe a → List.Sorted entryLe b → List.Sorted entryLe (sweep thr a b) := by
  induction a, b using sweep.induct thr with
  | case1 =>
    intro _ _
    simp [sweep]
  | case2 e e2 rest hc ih =>
    intro ha hb
    rw [sweep.eq_def]
    dsimp only
    rw [if_pos hc]
    have h2 := List.sorted_cons.mp (List.sorted_cons.mp hb).2
    exact ih ha (List.sorted_cons.mpr ⟨h2.1, h2.2⟩)
  | case3 e e2 rest hc ih =>
    intro ha hb
    rw [sweep.eq_def]
    dsimp only
    rw [if_neg hc]
    have hb2 := List.sorted_cons.mp hb
    refine List.sorted_cons.mpr ⟨?_, ih ha hb2.2⟩
    intro y hy
    exact sweep_val_lb thr [] (e2 :: rest) e.val (by simp) hb2.1 y hy
  | case4 e =>
    intro _ _
    simp [sweep]
  | case5 inc e2 rest hc ih =>
    intro ha hb
    rw [sweep.eq_def]
    dsimp only
    rw [if_pos hc]
    have h2 := List.sorted_cons.mp (List.sorted_cons.mp ha).2
    exact ih (List.sorted_cons.mpr ⟨h2.1, h2.2⟩) hb
  | case6 inc e2 rest hc ih =>
    intro ha hb
    rw [sweep.eq_def]
    dsimp only
    rw [if_neg hc]
    have ha2 := List.sorted_cons.mp ha
    refine List.sorted_cons.mpr ⟨?_, ih ha2.2 hb⟩
    intro y hy
    exact sweep_val_lb thr (e2 :: rest) [] inc.val ha2.1 (by simp) y hy
  | case7 inc =>
    intro _ _
    simp [sweep]
  | case8 inc incs e es hlt hc ih =>
    intro ha hb
    rw [sweep.eq_def]
    dsimp only
    rw [if_pos hlt, if_pos hc]
    have hb2 := List.sorted_cons.mp hb
    exact ih (List.sorted_cons.mp ha).2 (List.sorted_cons.mpr ⟨hb2.1, hb2.2⟩)
  | case9 inc incs e es hlt hc ih =>
    intro ha hb
    rw [sweep.eq_def]
    dsimp only
    rw [if_pos hlt, if_neg hc]
    have ha2 := List.sorted_cons.mp ha
    have hb2 := List.sorted_cons.mp hb
    refine List.sorted_cons.mpr ⟨?_, ih ha2.2 hb⟩
    intro y hy
    refine sweep_val_lb thr incs (e :: es) inc.val ha2.1 ?_ y hy
    intro w hw
    rcases List.mem_cons.mp hw with rfl | hw2
    · exact hlt.le
    · exact le_trans hlt.le (hb2.1 w hw2)
  | case10 inc incs e hnlt e2 rest hc ih =>
    intro ha hb
    rw [sweep.eq_def]
    dsimp only
    rw [if_neg hnlt, if_pos hc]
    have h2 := List.sorted_cons.mp (List.sorted_cons.mp hb).2
    exact ih ha (List.sorted_cons.mpr ⟨h2.1, h2.2⟩)
  | case11 inc incs e hnlt e2 rest hc ih =>
    intro ha hb
    rw [sweep.eq_def]
    dsimp only
    rw [if_neg hnlt, if_neg hc]
    have ha2 := List.sorted_cons.mp ha
    have hb2 := List.sorted_cons.mp hb
    refine List.sorted_cons.mpr ⟨?_, ih ha hb2.2⟩
    intro y hy
    refine sweep_val_lb thr (inc :: incs) (e2 :: rest) e.val ?_ hb2.1 y hy
    intro w hw
    rcases List.mem_cons.mp hw with rfl | hw2
    · exact not_lt.mp hnlt
    · exact le_trans (not_lt.mp hnlt) (ha2.1 w hw2)
  | case12 inc incs e hnlt ih =>
    intro ha hb
    rw [sweep.eq_def]
    dsimp only
    rw [if_neg hnlt]
    have ha2 := List.sorted_cons.mp ha
    refine List.sorted_cons.mpr ⟨?_, ih ha (by simp)⟩
    intro y hy
    refine sweep_val_lb thr (inc :: incs) [] e.val ?_ (by simp) y hy
    intro w hw
    rcases List.mem_cons.mp hw with rfl | hw2
    · exact not_lt.mp hnlt
    · exact le_trans (not_lt.mp hnlt) (ha2.1 w hw2)

/-- The state a successful `merge_compress(entries)` leaves behind (see
`merge_compress_eq`). -/
def compactResult (s : GKArray) (es : List Entry) : GKArray :=
  { s with
    entries := sweep (⌊2 * s.eps * ((s.n : ℚ) - 1)⌋)
      (List.insertionSort entryLe (es.map copyEntry)) s.entries,
    incoming := [] }

/-- C4: corrected.  A full compaction that completes (empty raw buffer —
otherwise it raises, see `c2_compress_unwrapped_buffer`) leaves the buffer
empty, keeps the entries sorted ascending by value (given sorted prior
entries), and preserves total `g`-mass: the new `sum(g)` is the old
`sum(g)` plus the supplied extras' `sum(g)`.  The claimed `sum(g) = count`
fails after a merge, because `merge` drops synthetic entries with
non-positive `g` (see `c4_merge_breaks_g_invariant`). -/
theorem c4_compaction_postconditions (s : GKArray) (es : List Entry)
    (hsi : s.incoming = []) (hsort : List.Sorted entryLe s.entries) :
    merge_compress s es = .ok (compactResult s es) ∧
    (compactResult s es).incoming = [] ∧
    List.Sorted entryLe (compactResult s es).entries ∧
    sumG (compactResult s es).entries = sumG s.entries + sumG es := by
  refine ⟨?_, rfl, ?_, ?_⟩
  · rw [merge_compress_eq, if_pos hsi]
    rfl
  · exact sweep_sorted _ _ _ (List.sorted_insertionSort entryLe _) hsort
  · show sumG (sweep _ _ _) = _
    rw [sweep_sumG, sumG_perm (List.perm_insertionSort entryLe _), map_copyEntry]
    omega

/-- A sorted compacted sketch used to exercise `c4_compaction_postconditions`. -/
def c4State : GKArray := ⟨1/2, [⟨2, 2, 0⟩, ⟨3, 1, 0⟩], [], 1, 3, 3, 6, 2⟩

/-- Witness for `c4_compaction_postconditions` at `c4State` with one
extra entry. -/
theorem c4_compaction_postconditions_witness :
    (c4State.incoming = [] ∧ List.Sorted entryLe c4State.entries) ∧
      (merge_compress c4State [⟨1, 1, 0⟩] = .ok (compactResult c4State [⟨1, 1, 0⟩]) ∧
        (compactResult c4State [⟨1, 1, 0⟩]).incoming = [] ∧
        List.Sorted entryLe (compactResult c4State [⟨1, 1, 0⟩]).entries ∧
        sumG (compactResult c4State [⟨1, 1, 0⟩]).entries =
          sumG c4State.entries + sumG [⟨1, 1, 0⟩]) :=
  ⟨⟨rfl, by norm_num [c4State, List.sorted_cons, entryLe]⟩,
    c4_compaction_postconditions c4State [⟨1, 1, 0⟩] rfl
      (by norm_num [c4State, List.sorted_cons, entryLe])⟩

/-- `self` sketch for the C4 merge counterexample: one observation. -/
def c4MergeSelf : GKArray := ⟨1/2, [⟨0, 1, 0⟩], [], 0, 0, 1, 0, 0⟩

/-- `other` sketch for the C4 merge counterexample: five observations,
`sum(g) = 5 = count`, first entry `g = 1` small enough that the merge's
first synthetic entry gets `g = 1 + 0 - 2 - 1 = -2 < 0` and is dropped. -/
def c4MergeOther : GKArray := ⟨1/2, [⟨1, 1, 0⟩, ⟨2, 4, 0⟩], [], 1, 2, 5, 2, 2/5⟩

/-- C4 counterexample: the compaction triggered by this merge completes
and yields `sum(g) = 8` while `count = 6`: dropping the negative-`g`
synthetic entry breaks the claimed `sum(g) = count` invariant. -/
theorem c4_merge_breaks_g_invariant :
    (merge c4MergeSelf c4MergeOther).toOption.map
        (fun p => (sumG p.1.entries, (p.1.n : ℤ))) = some (8, 6) ∧ (8 : ℤ) ≠ 6 := by
  constructor
  · norm_num [merge, merge_compress, sweep, synthEntries, interiorEntries, pytrunc,
      c4MergeSelf, c4MergeOther, List.insertionSort, List.orderedInsert, entryLe,
      List.cons_ne_nil, reduceCtorEq, copyEntry, List.getLast?, sumG]
    exact ⟨_, ⟨_, rfl⟩, rfl, rfl⟩
  · norm_num

/-! ### C6 — the quantile scan -/

/-- Claim-side accumulated `g_sum` at entry `i`: the sum of `g` over
entries `0..i` (from the spec's words "scan `entries` accumulating
`g_sum`"). -/
def gUpTo (es : List Entry) (i : ℕ) : ℤ := ((es.take (i + 1)).map fun e => e.g).sum

/-- Claim-side stopping index, from the spec's words: the first entry
index where `g_sum + entry.delta - 1 > rank + spread` (here `thr`), or the
number of entries when none exceeds the bound. -/
def stopIdxSpec (thr : ℤ) (es : List Entry) : ℕ :=
  (List.range es.length).findIdx fun i =>
    decide (thr < gUpTo es i + (es.getD i default).delta - 1)

/-- Claim-side quantile value, from the spec's words: with
`rank = floor(q*(count-1)) + 1` and `spread = floor(epsilon*(count-1))`,
stop at the first entry exceeding the bound and return the previous
entry's value, `min` when the very first entry already exceeds it, and
the last entry's value when none does. -/
def quantileSpec (s : GKArray) (q : ℚ) : ℚ :=
  let rank : ℤ := ⌊q * ((s.n : ℚ) - 1)⌋ + 1
  let spread : ℤ := ⌊s.eps * ((s.n : ℚ) - 1)⌋
  let i := stopIdxSpec (rank + spread) s.entries
  if i = 0 then s.minv else (s.entries.getD (i - 1) default).val

/-- The stopping index of the source's scan loop, recursively: `g` is the
`g_sum` accumulated so far. -/
def stopRec (thr : ℤ) : List Entry → ℤ → ℕ
  | [], _ => 0
  | e :: es, g => if thr < g + e.g + e.delta - 1 then 0 else stopRec thr es (g + e.g) + 1

/-- `quantScan` returns `prev`/`min` at stopping index `0` and otherwise
the value of the entry just before the stopping index. -/
theorem quantScan_stopRec (mn : ℚ) (thr : ℤ) :
    ∀ (es : List Entry) (gsum : ℤ) (prev : Option ℚ),
      quantScan mn thr es gsum prev =
        if stopRec thr es gsum = 0 then
          (match prev with | none => mn | some v => v)
        else (es.getD (stopRec thr es gsum - 1) default).val := by
  intro es
  induction es with
  | nil =>
    intro gsum prev
    cases prev <;> simp [quantScan, stopRec]
  | cons e es ih =>
    intro gsum prev
    by_cases hc : thr < gsum + e.g + e.delta - 1
    · cases prev <;> simp [quantScan, stopRec, hc]
    · have hstep : quantScan mn thr (e :: es) gsum prev =
          quantScan mn thr es (gsum + e.g) (some e.val) := by
        cases prev <;> simp [quantScan, hc]
      rw [hstep, ih]
      by_cases hk : stopRec thr es (gsum + e.g) = 0
      · simp [stopRec, hc, hk]
      · simp only [stopRec, if_neg hc, hk, if_neg (Nat.succ_ne_zero _), if_neg hk]
        have hk1 : stopRec thr es (gsum + e.g) + 1 - 1 =
            (stopRec thr es (gsum + e.g) - 1) + 1 := by omega
        rw [hk1, List.getD_cons_succ]
        simp

theorem findIdx_map {α β : Type} (f : α → β) (l : List α) (p : β → Bool) :
    (l.map f).findIdx p = l.findIdx (fun x => p (f x)) := by
  induction l with
  | nil => rfl
  | cons x xs ih => simp [List.findIdx_cons, ih]

theorem findIdx_congr {α : Type} {p q : α → Bool} (l : List α)
    (h : ∀ x ∈ l, p x = q x) : l.findIdx p = l.findIdx q := by
  induction l with
  | nil => rfl
  | cons x xs ih =>
    simp only [List.findIdx_cons, h x (List.mem_cons_self x xs)]
    rw [ih fun y hy => h y (List.mem_cons_of_mem x hy)]

/-- The source's recursive stopping index is the spec's "first entry
where the accumulated `g_sum` exceeds the bound" index. -/
theorem stopRec_eq_stopIdxSpec (thr : ℤ) :
    ∀ (es : List Entry) (g : ℤ),
      stopRec thr es g =
        (List.range es.length).findIdx fun i =>
          decide (thr < g + gUpTo es i + (es.getD i default).delta - 1) := by
  intro es
  induction es with
  | nil => intro g; rfl
  | cons e es ih =>
    intro g
    rw [stopRec]
    have h0 : gUpTo (e :: es) 0 = e.g := by simp [gUpTo]
    rw [List.length_cons, List.range_succ_eq_map, List.findIdx_cons, findIdx_map]
    by_cases hc : thr < g + e.g + e.delta - 1
    · simp [h0, hc]
    · rw [if_neg hc]
      have hp0 : (decide (thr < g + gUpTo (e :: es) 0 +
          ((e :: es).getD 0 default).delta - 1)) = false := by
        simp only [h0, List.getD_cons_zero, decide_eq_false_iff_not]
        omega
      rw [hp0, cond_false, ih (g + e.g)]
      rw [Nat.add_right_cancel_iff]
      apply findIdx_congr
      intro i hi
      rw [decide_eq_decide]
      have hg : gUpTo (e :: es) (i + 1) = e.g + gUpTo es i := by
        simp [gUpTo, List.take_succ_cons]
      simp only [Nat.succ_eq_add_one, hg, List.getD_cons_succ]
      omega

/-- C6: corrected.  On a non-empty sketch with `count ≥ 1/epsilon` whose
raw buffer is empty (with a pending buffer the query raises instead, see
`c6_quantile_pending_buffer_crashes`), `quantile(q)` computes
`rank = floor(q*(count-1)) + 1` and `spread = floor(epsilon*(count-1))`,
stops at the first entry whose accumulated `g_sum` satisfies
`g_sum + delta - 1 > rank + spread`, and returns the previous entry's
value — `min` when the very first entry exceeds the bound, the last
entry's value when none does (`quantileSpec`). -/
theorem c6_quantile_formula (s : GKArray) (q : ℚ) (heps : 0 < s.eps)
    (hsi : s.incoming = []) (hn : 1 / s.eps ≤ (s.n : ℚ))
    (hq0 : 0 ≤ q) (hq1 : q ≤ 1) :
    quantile s q = .ok (s, .num (quantileSpec s q)) := by
  have hepsinv : 0 < 1 / s.eps := by positivity
  have hn0 : 0 < (s.n : ℚ) := lt_of_lt_of_le hepsinv hn
  have hne : s.n ≠ 0 := by
    intro h0
    rw [h0] at hn0
    norm_num at hn0
  have hn1 : (1 : ℚ) ≤ (s.n : ℚ) := by
    have := Nat.one_le_iff_ne_zero.mpr hne
    exact_mod_cast this
  have hnm1 : (0 : ℚ) ≤ (s.n : ℚ) - 1 := by linarith
  have hthr : sketchThr s q = (⌊q * ((s.n : ℚ) - 1)⌋ + 1) + ⌊s.eps * ((s.n : ℚ) - 1)⌋ := by
    unfold sketchThr
    rw [pytrunc_eq_floor _ (by nlinarith [mul_nonneg hq0 hnm1]),
      pytrunc_eq_floor _ (mul_nonneg heps.le hnm1)]
    rw [Int.floor_add_one]
  rw [quantile, if_neg (by push_neg; exact ⟨hq0, hq1, hne⟩), if_pos hsi]
  dsimp only
  rw [if_neg (not_lt.mpr hn)]
  have hval : quantScan s.minv (sketchThr s q) s.entries 0 none = quantileSpec s q := by
    rw [quantScan_stopRec, stopRec_eq_stopIdxSpec]
    simp only [zero_add]
    rw [hthr]
    rfl
  rw [hval]

/-- A compacted sketch with `n = 3 ≥ 1/eps = 2` for the C6 witness. -/
def c6State : GKArray := ⟨1/2, [⟨2, 2, 0⟩, ⟨3, 1, 0⟩], [], 1, 3, 3, 6, 2⟩

/-- Witness for `c6_quantile_formula` at `c6State`, `q = 1/2`. -/
theorem c6_quantile_formula_witness :
    (0 < c6State.eps ∧ c6State.incoming = [] ∧ 1 / c6State.eps ≤ (c6State.n : ℚ) ∧
        0 ≤ (1 : ℚ)/2 ∧ (1 : ℚ)/2 ≤ 1) ∧
      quantile c6State (1/2) = .ok (c6State, .num (quantileSpec c6State (1/2))) :=
  ⟨⟨by norm_num [c6State], rfl, by norm_num [c6State], by norm_num, by norm_num⟩,
    c6_quantile_formula c6State (1/2) (by norm_num [c6State]) rfl
      (by norm_num [c6State]) (by norm_num) (by norm_num)⟩

/-- A non-empty sketch with `n = 2 ≥ 1/eps` and a pending raw buffer
(reachable: `GKArray(0.5)` after `add(4); add(7)`). -/
def c6CrashState : GKArray := ⟨1/2, [], [4, 7], 4, 7, 2, 11, 11/2⟩

/-- C6 counterexample: on a sketch with a pending raw buffer the claimed
scan never happens — `quantile` raises `AttributeError` in the forced
compaction, returning no value at all. -/
theorem c6_quantile_pending_buffer_crashes :
    quantile c6CrashState (1/2) = .error (.attributeError, c6CrashState) := by
  norm_num [quantile, merge_compress, c6CrashState, List.cons_ne_nil, reduceCtorEq]

/-! ### C10 — monotonicity of quantile queries -/

theorem sorted_getD_mono (ys : List ℚ) (hs : List.Sorted (· ≤ ·) ys)
    (i j : ℕ) (hij : i ≤ j) (hj : j < ys.length) : ys.getD i 0 ≤ ys.getD j 0 := by
  have hi : i < ys.length := lt_of_le_of_lt hij hj
  rw [List.getD_eq_getElem ys 0 hi, List.getD_eq_getElem ys 0 hj]
  rcases Nat.eq_or_lt_of_le hij with rfl | hlt
  · exact le_refl _
  · exact hs.rel_get_of_lt (show (⟨i, hi⟩ : Fin ys.length) < ⟨j, hj⟩ from hlt)

theorem interpVal_facts (ys : List ℚ) (h : ℚ)
    (h0 : 0 ≤ h) (hub : h ≤ (ys.length : ℚ) - 1) :
    0 ≤ ⌊h⌋ ∧ ⌈h⌉ ≤ (ys.length : ℤ) - 1 ∧ (⌊h⌋).toNat ≤ (⌈h⌉).toNat ∧
      (⌈h⌉).toNat < ys.length := by
  have hf0 : 0 ≤ ⌊h⌋ := Int.floor_nonneg.mpr h0
  have hcl : ⌈h⌉ ≤ (ys.length : ℤ) - 1 := by
    rw [Int.ceil_le]
    push_cast
    exact hub
  have hfc : ⌊h⌋ ≤ ⌈h⌉ := Int.floor_le_ceil h
  have hlen : (1 : ℤ) ≤ (ys.length : ℤ) := by omega
  refine ⟨hf0, hcl, ?_, ?_⟩ <;> omega

theorem interpVal_ge (ys : List ℚ) (hs : List.Sorted (· ≤ ·) ys) (h : ℚ)
    (h0 : 0 ≤ h) (hub : h ≤ (ys.length : ℚ) - 1) :
    ys.getD (⌊h⌋).toNat 0 ≤ interpVal ys h := by
  obtain ⟨hf0, hcl, hlohi, hhi⟩ := interpVal_facts ys h h0 hub
  have hab := sorted_getD_mono ys hs _ _ hlohi hhi
  have hfr : 0 ≤ h - (⌊h⌋ : ℚ) := sub_nonneg.mpr (Int.floor_le h)
  unfold interpVal
  nlinarith

theorem interpVal_le (ys : List ℚ) (hs : List.Sorted (· ≤ ·) ys) (h : ℚ)
    (h0 : 0 ≤ h) (hub : h ≤ (ys.length : ℚ) - 1) :
    interpVal ys h ≤ ys.getD (⌈h⌉).toNat 0 := by
  obtain ⟨hf0, hcl, hlohi, hhi⟩ := interpVal_facts ys h h0 hub
  have hab := sorted_getD_mono ys hs _ _ hlohi hhi
  have hfr : h - (⌊h⌋ : ℚ) ≤ 1 := by
    have := Int.lt_floor_add_one h
    linarith
  unfold interpVal
  nlinarith

theorem interpVal_mono (ys : List ℚ) (hs : List.Sorted (· ≤ ·) ys) (h1 h2 : ℚ)
    (h0 : 0 ≤ h1) (h12 : h1 ≤ h2) (hub : h2 ≤ (ys.length : ℚ) - 1) :
    interpVal ys h1 ≤ interpVal ys h2 := by
  rcases eq_or_lt_of_le h12 with rfl | hlt
  · exact le_refl _
  have hub1 : h1 ≤ (ys.length : ℚ) - 1 := le_trans h12 hub
  have h02 : 0 ≤ h2 := le_trans h0 h12
  by_cases hfl : ⌊h1⌋ = ⌊h2⌋
  · by_cases hint : (⌊h1⌋ : ℚ) = h1
    · have hv1 : interpVal ys h1 = ys.getD (⌊h1⌋).toNat 0 := by
        unfold interpVal
        rw [hint]
        ring
      rw [hv1, hfl]
      exact interpVal_ge ys hs h2 h02 hub
    · have hflt1 : (⌊h1⌋ : ℚ) < h1 := lt_of_le_of_ne (Int.floor_le h1) hint
      have hc1 : ⌈h1⌉ = ⌊h1⌋ + 1 := by
        have hle : ⌈h1⌉ ≤ ⌊h1⌋ + 1 := by
          rw [Int.ceil_le]
          push_cast
          exact (Int.lt_floor_add_one h1).le
        have hge : ⌊h1⌋ + 1 ≤ ⌈h1⌉ := by
          have : (⌊h1⌋ : ℚ) < (⌈h1⌉ : ℚ) := lt_of_lt_of_le hflt1 (Int.le_ceil h1)
          exact_mod_cast Int.add_one_le_iff.mpr (by exact_mod_cast this)
        omega
      have hflt2 : (⌊h2⌋ : ℚ) < h2 := by
        rw [← hfl]
        exact lt_of_lt_of_le hflt1 h12
      have hc2 : ⌈h2⌉ = ⌊h2⌋ + 1 := by
        have hle : ⌈h2⌉ ≤ ⌊h2⌋ + 1 := by
          rw [Int.ceil_le]
          push_cast
          exact (Int.lt_floor_add_one h2).le
        have hge : ⌊h2⌋ + 1 ≤ ⌈h2⌉ := by
          have : (⌊h2⌋ : ℚ) < (⌈h2⌉ : ℚ) := lt_of_lt_of_le hflt2 (Int.le_ceil h2)
          exact_mod_cast Int.add_one_le_iff.mpr (by exact_mod_cast this)
        omega
      obtain ⟨hf0, hcl, hlohi, hhi⟩ := interpVal_facts ys h2 h02 hub
      have hab := sorted_getD_mono ys hs _ _ hlohi hhi
      rw [hc2] at hab
      unfold interpVal
      rw [hfl, hc1, hc2, hfl]
      have hq : (⌊h2⌋ : ℚ) ≤ h1 := by
        rw [← hfl]
        exact Int.floor_le h1
      nlinarith [mul_nonneg (sub_nonneg.mpr h12)
        (sub_nonneg.mpr hab)]
  · have hfltint : ⌊h1⌋ < ⌊h2⌋ := lt_of_le_of_ne (Int.floor_le_floor h12) hfl
    obtain ⟨hf01, hcl1, hlohi1, hhi1⟩ := interpVal_facts ys h1 h0 hub1
    obtain ⟨hf02, hcl2, hlohi2, hhi2⟩ := interpVal_facts ys h2 h02 hub
    have hstep : (⌈h1⌉).toNat ≤ (⌊h2⌋).toNat := by
      have : ⌈h1⌉ ≤ ⌊h1⌋ + 1 := Int.ceil_le_floor_add_one h1
      omega
    have hlo2 : (⌊h2⌋).toNat < ys.length := by omega
    calc interpVal ys h1 ≤ ys.getD (⌈h1⌉).toNat 0 := interpVal_le ys hs h1 h0 hub1
      _ ≤ ys.getD (⌊h2⌋).toNat 0 := sorted_getD_mono ys hs _ _ hstep hlo2
      _ ≤ interpVal ys h2 := interpVal_ge ys hs h2 h02 hub

/-- `np.percentile` is monotone in the percentile argument. -/
theorem npPercentile_mono (xs : List ℚ) (hne : xs ≠ []) (p1 p2 : ℚ)
    (h0 : 0 ≤ p1) (h12 : p1 ≤ p2) (h100 : p2 ≤ 100) :
    npPercentile xs p1 ≤ npPercentile xs p2 := by
  unfold npPercentile
  have hsorted : List.Sorted (· ≤ ·) (List.insertionSort (· ≤ ·) xs) :=
    List.sorted_insertionSort (· ≤ ·) xs
  have hlen : 1 ≤ (List.insertionSort (· ≤ ·) xs).length := by
    rw [List.length_insertionSort]
    exact List.length_pos.mpr hne
  have hlenq : (1 : ℚ) ≤ ((List.insertionSort (· ≤ ·) xs).length : ℚ) := by
    exact_mod_cast hlen
  apply interpVal_mono _ hsorted
  · have : 0 ≤ p1 / 100 := div_nonneg h0 (by norm_num)
    nlinarith
  · have hpp : p1 / 100 ≤ p2 / 100 := by linarith
    nlinarith
  · have hp1 : p2 / 100 ≤ 1 := by linarith
    have : 0 ≤ p2 / 100 := div_nonneg (le_trans h0 h12) (by norm_num)
    nlinarith

/-- On a sorted entry list bounded below by `v`, the scan starting with
previous value `v` returns at least `v`. -/
theorem quantScan_lb (mn : ℚ) (thr : ℤ) :
    ∀ (es : List Entry) (gsum : ℤ) (v : ℚ), List.Sorted entryLe es →
      (∀ w ∈ es, v ≤ w.val) → v ≤ quantScan mn thr es gsum (some v) := by
  intro es
  induction es with
  | nil =>
    intro gsum v _ _
    simp [quantScan]
  | cons e es ih =>
    intro gsum v hsort hbound
    by_cases hc : thr < gsum + e.g + e.delta - 1
    · simp [quantScan, hc]
    · have hstep : quantScan mn thr (e :: es) gsum (some v) =
          quantScan mn thr es (gsum + e.g) (some e.val) := by
        simp [quantScan, hc]
      rw [hstep]
      exact le_trans (hbound e (List.mem_cons_self e es))
        (ih (gsum + e.g) e.val (List.sorted_cons.mp hsort).2 (List.sorted_cons.mp hsort).1)

/-- The scan is monotone in the threshold, on sorted entries bounded
below by the fallback value. -/
theorem quantScan_mono (mn : ℚ) (thr1 thr2 : ℤ) (h12 : thr1 ≤ thr2) :
    ∀ (es : List Entry) (gsum : ℤ) (prev : Option ℚ), List.Sorted entryLe es →
      (∀ w ∈ es, (match prev with | none => mn | some v => v) ≤ w.val) →
      quantScan mn thr1 es gsum prev ≤ quantScan mn thr2 es gsum prev := by
  intro es
  induction es with
  | nil =>
    intro gsum prev _ _
    cases prev <;> simp [quantScan]
  | cons e es ih =>
    intro gsum prev hsort hbound
    have htail := (List.sorted_cons.mp hsort).2
    have hhead := (List.sorted_cons.mp hsort).1
    cases prev with
    | none =>
      by_cases hc2 : thr2 < gsum + e.g + e.delta - 1
      · have hc1 : thr1 < gsum + e.g + e.delta - 1 := lt_of_le_of_lt h12 hc2
        simp [quantScan, hc1, hc2]
      · by_cases hc1 : thr1 < gsum + e.g + e.delta - 1
        · rw [show quantScan mn thr1 (e :: es) gsum none = mn from by
              simp [quantScan, hc1],
            show quantScan mn thr2 (e :: es) gsum none =
                quantScan mn thr2 es (gsum + e.g) (some e.val) from by
              simp [quantScan, hc2]]
          exact le_trans (hbound e (List.mem_cons_self e es))
            (quantScan_lb mn thr2 es (gsum + e.g) e.val htail hhead)
        · rw [show quantScan mn thr1 (e :: es) gsum none =
                quantScan mn thr1 es (gsum + e.g) (some e.val) from by
              simp [quantScan, hc1],
            show quantScan mn thr2 (e :: es) gsum none =
                quantScan mn thr2 es (gsum + e.g) (some e.val) from by
              simp [quantScan, hc2]]
          exact ih (gsum + e.g) (some e.val) htail hhead
    | some v =>
      by_cases hc2 : thr2 < gsum + e.g + e.delta - 1
      · have hc1 : thr1 < gsum + e.g + e.delta - 1 := lt_of_le_of_lt h12 hc2
        simp [quantScan, hc1, hc2]
      · by_cases hc1 : thr1 < gsum + e.g + e.delta - 1
        · rw [show quantScan mn thr1 (e :: es) gsum (some v) = v from by
              simp [quantScan, hc1],
            show quantScan mn thr2 (e :: es) gsum (some v) =
                quantScan mn thr2 es (gsum + e.g) (some e.val) from by
              simp [quantScan, hc2]]
          exact le_trans (hbound e (List.mem_cons_self e es))
            (quantScan_lb mn thr2 es (gsum + e.g) e.val htail hhead)
        · rw [show quantScan mn thr1 (e :: es) gsum (some v) =
                quantScan mn thr1 es (gsum + e.g) (some e.val) from by
              simp [quantScan, hc1],
            show quantScan mn thr2 (e :: es) gsum (some v) =
                quantScan mn thr2 es (gsum + e.g) (some e.val) from by
              simp [quantScan, hc2]]
          exact ih (gsum + e.g) (some e.val) htail hhead

/-- Evaluation of `quantile` on a compacted (`incoming = []`) non-empty
sketch with an in-range argument: the percentile path below `1/eps`
observations, the scan path otherwise. -/
theorem quantile_eval (s : GKArray) (q : ℚ) (hsi : s.incoming = [])
    (hq0 : 0 ≤ q) (hq1 : q ≤ 1) (hn : s.n ≠ 0) (hent : s.entries ≠ []) :
    quantile s q = .ok (s, .num (
      if (s.n : ℚ) < 1 / s.eps then
        npPercentile (s.entries.map fun e => e.val) (q * 100)
      else quantScan s.minv (sketchThr s q) s.entries 0 none)) := by
  rw [quantile, if_neg (by push_neg; exact ⟨hq0, hq1, hn⟩), if_pos hsi]
  dsimp only
  by_cases hsm : (s.n : ℚ) < 1 / s.eps
  · rw [if_pos hsm, if_neg hent, if_pos hsm]
  · rw [if_neg hsm, if_neg hsm]

/-- The numeric value produced by `quantile`, in `WithBot ℚ` (`⊥` when
the query raises or yields the `NaN` sentinel). -/
def qnum (s : GKArray) (q : ℚ) : WithBot ℚ :=
  match quantile s q with
  | .ok (_, .num x) => (x : WithBot ℚ)
  | _ => ⊥

/-- C10: corrected.  On a well-formed compacted sketch (empty raw buffer
— with a pending buffer both queries raise instead, see
`c10_quantile_crash_state` — sorted entries bounded below by `_min`,
`g`-mass equal to the count, at least one observation), `quantile` is
monotone: `q1 < q2` within `[0,1]` gives `quantile(q1) ≤ quantile(q2)`. -/
theorem c10_quantile_monotone (s : GKArray) (q1 q2 : ℚ)
    (hsi : s.incoming = []) (hn : 0 < s.n)
    (hsort : List.Sorted entryLe s.entries)
    (hmn : ∀ e ∈ s.entries, s.minv ≤ e.val)
    (hmass : sumG s.entries = (s.n : ℤ))
    (hq0 : 0 ≤ q1) (hq12 : q1 < q2) (hq1 : q2 ≤ 1) :
    qnum s q1 ≠ ⊥ ∧ qnum s q1 ≤ qnum s q2 := by
  have hent : s.entries ≠ [] := ne_nil_of_sumG_pos (by rw [hmass]; exact_mod_cast hn)
  have h1 := quantile_eval s q1 hsi hq0 (le_of_lt (lt_of_lt_of_le hq12 hq1)) hn.ne' hent
  have h2 := quantile_eval s q2 hsi (hq0.trans hq12.le) hq1 hn.ne' hent
  have hn1 : (1 : ℚ) ≤ (s.n : ℚ) := by exact_mod_cast hn
  have hnm1 : (0 : ℚ) ≤ (s.n : ℚ) - 1 := by linarith
  constructor
  · rw [qnum, h1]
    simp
  · rw [qnum, qnum, h1, h2]
    dsimp only
    by_cases hsm : (s.n : ℚ) < 1 / s.eps
    · rw [if_pos hsm, if_pos hsm]
      rw [WithBot.coe_le_coe]
      apply npPercentile_mono _ (by simp [hent])
      · linarith
      · linarith
      · linarith
    · rw [if_neg hsm, if_neg hsm]
      rw [WithBot.coe_le_coe]
      have hthr : sketchThr s q1 ≤ sketchThr s q2 := by
        have hA : pytrunc (q1 * ((s.n : ℚ) - 1) + 1) = ⌊q1 * ((s.n : ℚ) - 1) + 1⌋ :=
          pytrunc_eq_floor _ (by nlinarith [mul_nonneg hq0 hnm1])
        have hB : pytrunc (q2 * ((s.n : ℚ) - 1) + 1) = ⌊q2 * ((s.n : ℚ) - 1) + 1⌋ :=
          pytrunc_eq_floor _ (by nlinarith [mul_nonneg (hq0.trans hq12.le) hnm1])
        unfold sketchThr
        rw [hA, hB]
        exact add_le_add_right
          (Int.floor_le_floor (by nlinarith [mul_le_mul_of_nonneg_right hq12.le hnm1])) _
      exact quantScan_mono s.minv _ _ hthr s.entries 0 none hsort hmn

/-- A compacted well-formed sketch for the C10 witness. -/
def c10State : GKArray := ⟨1/2, [⟨2, 2, 0⟩, ⟨3, 1, 0⟩], [], 1, 3, 3, 6, 2⟩

/-- Witness for `c10_quantile_monotone` at `c10State`, `q1 = 0 < q2 = 1`. -/
theorem c10_quantile_monotone_witness :
    (c10State.incoming = [] ∧ 0 < c10State.n ∧
        List.Sorted entryLe c10State.entries ∧
        (∀ e ∈ c10State.entries, c10State.minv ≤ e.val) ∧
        sumG c10State.entries = (c10State.n : ℤ) ∧
        (0 : ℚ) ≤ 0 ∧ (0 : ℚ) < 1 ∧ (1 : ℚ) ≤ 1) ∧
      qnum c10State 0 ≠ ⊥ ∧ qnum c10State 0 ≤ qnum c10State 1 :=
  ⟨⟨rfl, by norm_num [c10State], by norm_num [c10State, List.sorted_cons, entryLe],
      by norm_num [c10State], by norm_num [c10State, sumG], by norm_num, by norm_num,
      by norm_num⟩,
    c10_quantile_monotone c10State 0 1 rfl (by norm_num [c10State])
      (by norm_num [c10State, List.sorted_cons, entryLe]) (by norm_num [c10State])
      (by norm_num [c10State, sumG]) (by norm_num) (by norm_num) (by norm_num)⟩

/-- A non-empty sketch with a pending raw buffer (reachable:
`GKArray(0.5)` after `add(2); add(9)`). -/
def c10CrashState : GKArray := ⟨1/2, [], [2, 9], 2, 9, 2, 11, 11/2⟩

/-- C10 counterexample: on a sketch state with a pending raw buffer,
`quantile(0)` raises `AttributeError` — there are no returned values to
compare, so the claimed inequality fails on such states. -/
theorem c10_quantile_crash_state :
    quantile c10CrashState 0 = .error (.attributeError, c10CrashState) := by
  norm_num [quantile, merge_compress, c10CrashState, List.cons_ne_nil, reduceCtorEq]

/-! ### C8 — NaN sentinel and batch quantiles -/

/-- Claim-side "beyond the last satisfiable entry" (from the spec's
words): at no prefix of the entries does the accumulated `g_sum` satisfy
`g_sum + delta - 1 > rank + spread` for this query value. -/
def unsatFrom (nn : ℕ) (spread : ℤ) (q : ℚ) : ℤ → List Entry → Bool
  | _, [] => true
  | gsum, e :: es =>
    decide (gsum + e.g + e.delta - 1 ≤ pytrunc (q * ((nn : ℚ) - 1) + 1) + spread) &&
      unsatFrom nn spread q (gsum + e.g) es

/-- The inner co-scan loop consumes a prefix of the query values, each
out-of-range one becoming `NaN` and each satisfied in-range one becoming
the previous entry's value — and the latter only when the current entry's
accumulated `g_sum` actually exceeds that value's `rank + spread` bound. -/
theorem coScanInner_spec (nn : ℕ) (spread gsum delta : ℤ) (prev : ℚ) :
    ∀ qs : List ℚ,
      ∃ qsa : List ℚ, qs = qsa ++ (coScanInner nn spread gsum delta prev qs).2 ∧
        List.Forall₂ (fun q r => ((q < 0 ∨ 1 < q) → r = QRes.nan) ∧
            (¬(q < 0 ∨ 1 < q) → r = QRes.num prev ∧
              pytrunc (q * ((nn : ℚ) - 1) + 1) + spread < gsum + delta - 1))
          qsa (coScanInner nn spread gsum delta prev qs).1 := by
  intro qs
  induction qs with
  | nil => exact ⟨[], rfl, List.Forall₂.nil⟩
  | cons q qs ih =>
    obtain ⟨qsa, he, hf⟩ := ih
    by_cases h1 : q < 0 ∨ 1 < q
    · refine ⟨q :: qsa, ?_, ?_⟩
      · simp only [coScanInner, if_pos h1]
        exact congrArg (q :: ·) he
      · simp only [coScanInner, if_pos h1]
        exact List.Forall₂.cons ⟨fun _ => rfl, fun hn => absurd h1 hn⟩ hf
    · by_cases h2 : pytrunc (q * ((nn : ℚ) - 1) + 1) + spread < gsum + delta - 1
      · refine ⟨q :: qsa, ?_, ?_⟩
        · simp only [coScanInner, if_neg h1, if_pos h2]
          exact congrArg (q :: ·) he
        · simp only [coScanInner, if_neg h1, if_pos h2]
          exact List.Forall₂.cons ⟨fun hor => absurd hor h1, fun _ => ⟨rfl, h2⟩⟩ hf
      · exact ⟨[], by simp [coScanInner, h1, h2], by simp [coScanInner, h1, h2]⟩

/-- Positional guarantee for the sorted co-scan: every out-of-range query
value yields `NaN` at its position (and the output has the input's length
and order, by `List.Forall₂`). -/
theorem coScanOuter_forall₂ (nn : ℕ) (spread : ℤ) (mx : ℚ) :
    ∀ (es : List Entry) (qs : List ℚ) (gsum : ℤ) (prev : ℚ),
      List.Forall₂ (fun q r => (q < 0 ∨ 1 < q) → r = QRes.nan) qs
        (coScanOuter nn spread mx es qs gsum prev) := by
  intro es
  induction es with
  | nil =>
    intro qs gsum prev
    simp only [coScanOuter]
    rw [List.forall₂_map_right_iff]
    rw [List.forall₂_same]
    intro x _ hor
    simp [hor]
  | cons e es ih =>
    intro qs gsum prev
    obtain ⟨qsa, he, hf⟩ := coScanInner_spec nn spread (gsum + e.g) e.delta prev qs
    rcases hinner : coScanInner nn spread (gsum + e.g) e.delta prev qs with ⟨outs, rest⟩
    rw [hinner] at he hf
    simp only at he hf
    have houter : coScanOuter nn spread mx (e :: es) qs gsum prev =
        outs ++ coScanOuter nn spread mx es rest (gsum + e.g) e.val := by
      simp only [coScanOuter, hinner]
    rw [houter]
    conv_lhs => rw [he]
    exact List.rel_append (hf.imp fun a b hab => hab.1) (ih rest (gsum + e.g) e.val)

/-- A scan that never breaks — the query value is beyond the last
satisfiable entry — walks off the end and returns the last entry's
value (the fallback when there are no entries). -/
theorem quantScan_unsat (mn : ℚ) (nn : ℕ) (spread : ℤ) (q : ℚ) :
    ∀ (es : List Entry) (gsum : ℤ) (prev : Option ℚ),
      unsatFrom nn spread q gsum es = true →
      quantScan mn (pytrunc (q * ((nn : ℚ) - 1) + 1) + spread) es gsum prev =
        ((es.map fun e => e.val).getLast?).getD
          (match prev with | none => mn | some v => v) := by
  intro es
  induction es with
  | nil =>
    intro gsum prev _
    cases prev <;> simp [quantScan]
  | cons e es ih =>
    intro gsum prev hu
    rw [unsatFrom, Bool.and_eq_true, decide_eq_true_eq] at hu
    have hnb : ¬(pytrunc (q * ((nn : ℚ) - 1) + 1) + spread <
        gsum + e.g + e.delta - 1) := not_lt.mpr hu.1
    have hstep : quantScan mn (pytrunc (q * ((nn : ℚ) - 1) + 1) + spread)
          (e :: es) gsum prev =
        quantScan mn (pytrunc (q * ((nn : ℚ) - 1) + 1) + spread) es
          (gsum + e.g) (some e.val) := by
      cases prev <;> simp [quantScan, hnb]
    rw [hstep, ih (gsum + e.g) (some e.val) hu.2]
    cases es with
    | nil => simp
    | cons e2 rest =>
      rcases Option.isSome_iff_exists.mp (List.getLast?_isSome.mpr
        (List.cons_ne_nil e2.val (rest.map fun e => e.val))) with ⟨y, hy⟩
      simp only [List.map_cons, List.getLast?_cons_cons, hy, Option.getD_some]

/-- Per-value guarantee of the sorted co-scan: every in-range query value
that is beyond the last satisfiable entry comes out as `_max` at its
position, whatever the rest of the batch does.  (An in-range value can
only be consumed before the entries run out by triggering at some entry,
which contradicts its unsatisfiability; so it survives to the final
sweep-up loop, which emits `_max`.) -/
theorem coScanOuter_unsat_at (nn : ℕ) (spread : ℤ) (mx : ℚ) :
    ∀ (es : List Entry) (qs : List ℚ) (gsum : ℤ) (prev : ℚ),
      List.Forall₂ (fun q r => ¬(q < 0 ∨ 1 < q) →
          unsatFrom nn spread q gsum es = true → r = QRes.num mx)
        qs (coScanOuter nn spread mx es qs gsum prev) := by
  intro es
  induction es with
  | nil =>
    intro qs gsum prev
    simp only [coScanOuter]
    rw [List.forall₂_map_right_iff, List.forall₂_same]
    intro x _ hin _
    rw [if_neg hin]
  | cons e es ih =>
    intro qs gsum prev
    obtain ⟨qsa, he, hf⟩ := coScanInner_spec nn spread (gsum + e.g) e.delta prev qs
    rcases hinner : coScanInner nn spread (gsum + e.g) e.delta prev qs with ⟨outs, rest⟩
    rw [hinner] at he hf
    simp only at he hf
    have houter : coScanOuter nn spread mx (e :: es) qs gsum prev =
        outs ++ coScanOuter nn spread mx es rest (gsum + e.g) e.val := by
      simp only [coScanOuter, hinner]
    rw [houter]
    conv_lhs => rw [he]
    refine List.rel_append (hf.imp ?_) ((ih rest (gsum + e.g) e.val).imp ?_)
    · intro a b hab hin hu
      exfalso
      rw [unsatFrom, Bool.and_eq_true, decide_eq_true_eq] at hu
      have htr := (hab.2 hin).2
      omega
    · intro a b hab hin hu
      rw [unsatFrom, Bool.and_eq_true] at hu
      exact hab hin hu.2

/-- C8: corrected.  On a sketch whose raw buffer is empty (with a pending
buffer the query raises instead, see `c8_quantile_crash_state`) and whose
entry `g`-mass matches its count: (1) `quantile(q)` returns the `NaN`
sentinel exactly when `q < 0`, `q > 1`, or no observations were made, and
otherwise returns a numeric value; (2) `quantiles(q_values)` returns a
list of the same length and order in which every out-of-range value
yields `NaN` at its position; (3) on a sketch with `count ≥ 1/epsilon`
whose last entry holds the exact maximum (a data-structure invariant),
every in-range value beyond the last satisfiable entry yields `max` at
its position — per value, in every batch, sorted (the linear co-scan) or
not (the per-value `quantile` fallback), regardless of what the other
batch values do. -/
theorem c8_nan_sentinel_and_quantiles (s : GKArray)
    (hsi : s.incoming = []) (hmass : sumG s.entries = (s.n : ℤ)) :
    (∀ q : ℚ, (quantile s q = .ok (s, .nan) ↔ (q < 0 ∨ 1 < q ∨ s.n = 0)) ∧
      (¬(q < 0 ∨ 1 < q ∨ s.n = 0) → qnum s q ≠ ⊥)) ∧
    (∀ qs : List ℚ, ∃ out, quantiles s qs = .ok (s, out) ∧ out.length = qs.length ∧
      List.Forall₂ (fun q r => (q < 0 ∨ 1 < q) → r = QRes.nan) qs out) ∧
    (∀ qs : List ℚ, 0 < s.eps → 1 / s.eps ≤ (s.n : ℚ) →
      (s.entries.map fun e => e.val).getLast? = some s.maxv →
      ∃ out, quantiles s qs = .ok (s, out) ∧
        List.Forall₂ (fun q r => ¬(q < 0 ∨ 1 < q) →
          unsatFrom s.n (pytrunc (s.eps * ((s.n : ℚ) - 1))) q 0 s.entries = true →
          r = QRes.num s.maxv) qs out) := by
  have hent : s.n ≠ 0 → s.entries ≠ [] := fun h3 =>
    ne_nil_of_sumG_pos (by rw [hmass]; exact_mod_cast Nat.pos_of_ne_zero h3)
  refine ⟨?_, ?_, ?_⟩
  · intro q
    constructor
    · constructor
      · intro hok
        by_contra hcond
        push_neg at hcond
        obtain ⟨h1, h2, h3⟩ := hcond
        rw [quantile_eval s q hsi h1 h2 h3 (hent h3)] at hok
        simp at hok
      · intro hcond
        rw [quantile, if_pos hcond]
    · intro hcond
      push_neg at hcond
      obtain ⟨h1, h2, h3⟩ := hcond
      rw [qnum, quantile_eval s q hsi h1 h2 h3 (hent h3)]
      simp
  · intro qs
    by_cases hn : s.n = 0
    · refine ⟨qs.map fun _ => QRes.nan, ?_, by simp, ?_⟩
      · rw [quantiles, if_pos hn]
      · rw [List.forall₂_map_right_iff, List.forall₂_same]
        intro x _ _
        rfl
    · rw [quantiles, if_neg hn, if_pos hsi]
      dsimp only
      by_cases hsm : (s.n : ℚ) < 1 / s.eps
      · rw [if_pos hsm, if_neg (by simp [hent hn])]
        refine ⟨_, rfl, by simp, ?_⟩
        rw [List.forall₂_map_right_iff, List.forall₂_same]
        intro x _ hor
        rw [if_pos hor]
      · rw [if_neg hsm]
        by_cases hsort : qs ≠ List.insertionSort (· ≤ ·) qs
        · rw [if_pos hsort]
          refine ⟨_, rfl, by simp, ?_⟩
          rw [List.forall₂_map_right_iff, List.forall₂_same]
          intro x _ hor
          simp [quantilePure, hor]
        · rw [if_neg hsort]
          refine ⟨_, rfl, ?_, coScanOuter_forall₂ s.n _ s.maxv s.entries qs 0 s.minv⟩
          exact (coScanOuter_forall₂ s.n _ s.maxv s.entries qs 0 s.minv).length_eq.symm
  · intro qs heps hnq hlast
    have hn0 : s.n ≠ 0 := by
      intro h0
      have : 0 < 1 / s.eps := by positivity
      rw [h0] at hnq
      norm_num at hnq
      linarith
    rw [quantiles, if_neg hn0, if_pos hsi]
    dsimp only
    rw [if_neg (not_lt.mpr hnq)]
    by_cases hsort : qs ≠ List.insertionSort (· ≤ ·) qs
    · rw [if_pos hsort]
      refine ⟨_, rfl, ?_⟩
      rw [List.forall₂_map_right_iff, List.forall₂_same]
      intro x _ hin hu
      rw [quantilePure, if_neg hin, sketchThr]
      rw [quantScan_unsat s.minv s.n (pytrunc (s.eps * ((s.n : ℚ) - 1))) x
        s.entries 0 none hu]
      rw [hlast]
      rfl
    · rw [if_neg hsort]
      exact ⟨_, rfl, coScanOuter_unsat_at s.n _ s.maxv s.entries qs 0 s.minv⟩

/-- A compacted sketch (`sum(g) = count = 3`, `eps = 1/2`) for the C8
witness. -/
def c8State : GKArray := ⟨1/2, [⟨2, 2, 0⟩, ⟨3, 1, 0⟩], [], 1, 3, 3, 6, 2⟩

/-- A compacted sketch (`sum(g) = count = 6`, `eps = 1/2`, last entry
value `5 = _max`) on which the batch `[1/5, 1/2]` is mixed: `1/5` is
satisfied at the second entry while `1/2` is beyond the last satisfiable
entry. -/
def c8MixState : GKArray := ⟨1/2, [⟨1, 3, 0⟩, ⟨5, 3, 0⟩], [], 1, 5, 6, 18, 3⟩

/-- Witness for `c8_nan_sentinel_and_quantiles`: the `NaN` iff at
`q = 2` and the batch guarantee at `[0, 1/2, 1]` on `c8State`; the
per-value beyond-last-entry `max` guarantee on `c8MixState` at the mixed
sorted batch `[1/5, 1/2]`, whose concrete output `[1, 5]` pairs a
satisfied value with a `_max` one. -/
theorem c8_nan_sentinel_and_quantiles_witness :
    (c8State.incoming = [] ∧ sumG c8State.entries = (c8State.n : ℤ) ∧
      c8MixState.incoming = [] ∧ sumG c8MixState.entries = (c8MixState.n : ℤ) ∧
      0 < c8MixState.eps ∧ 1 / c8MixState.eps ≤ (c8MixState.n : ℚ) ∧
      (c8MixState.entries.map fun e => e.val).getLast? = some c8MixState.maxv) ∧
    (quantile c8State 2 = .ok (c8State, .nan) ↔
      ((2 : ℚ) < 0 ∨ 1 < (2 : ℚ) ∨ c8State.n = 0)) ∧
    (∃ out, quantiles c8State [0, 1/2, 1] = .ok (c8State, out) ∧
      out.length = ([0, 1/2, 1] : List ℚ).length ∧
      List.Forall₂ (fun q r => (q < 0 ∨ 1 < q) → r = QRes.nan)
        ([0, 1/2, 1] : List ℚ) out) ∧
    (∃ out, quantiles c8MixState [1/5, 1/2] = .ok (c8MixState, out) ∧
      List.Forall₂ (fun q r => ¬(q < 0 ∨ 1 < q) →
        unsatFrom c8MixState.n (pytrunc (c8MixState.eps * ((c8MixState.n : ℚ) - 1))) q 0
          c8MixState.entries = true →
        r = QRes.num c8MixState.maxv) ([1/5, 1/2] : List ℚ) out) ∧
    quantiles c8MixState [1/5, 1/2] =
      .ok (c8MixState, [QRes.num 1, QRes.num 5]) := by
  have hmass : sumG c8State.entries = (c8State.n : ℤ) := by norm_num [c8State, sumG]
  have hmassM : sumG c8MixState.entries = (c8MixState.n : ℤ) := by
    norm_num [c8MixState, sumG]
  have hlastM : (c8MixState.entries.map fun e => e.val).getLast? =
      some c8MixState.maxv := by norm_num [c8MixState]
  refine ⟨⟨rfl, hmass, rfl, hmassM, by norm_num [c8MixState],
    by norm_num [c8MixState], hlastM⟩, ?_, ?_, ?_, ?_⟩
  · exact ((c8_nan_sentinel_and_quantiles c8State rfl hmass).1 2).1
  · exact (c8_nan_sentinel_and_quantiles c8State rfl hmass).2.1 [0, 1/2, 1]
  · exact (c8_nan_sentinel_and_quantiles c8MixState rfl hmassM).2.2 [1/5, 1/2]
      (by norm_num [c8MixState]) (by norm_num [c8MixState]) hlastM
  · norm_num [quantiles, coScanOuter, coScanInner, quantilePure, pytrunc,
      c8MixState, List.insertionSort, List.orderedInsert, List.cons_ne_nil,
      reduceCtorEq]

/-- A non-empty sketch with a pending raw buffer (reachable:
`GKArray(0.5)` after `add(5)`). -/
def c8CrashState : GKArray := ⟨1/2, [], [5], 5, 5, 1, 5, 5⟩

/-- C8 counterexample: the claim entails that `quantile(1/2)` on a
one-observation sketch returns a (non-`NaN`) value; with the pending raw
buffer the code instead raises `AttributeError` and returns nothing. -/
theorem c8_quantile_crash_state :
    quantile c8CrashState (1/2) = .error (.attributeError, c8CrashState) := by
  norm_num [quantile, merge_compress, c8CrashState, List.cons_ne_nil, reduceCtorEq]
